import Mathlib

set_option maxRecDepth 8192

/-!
Verification development for the uplink-relay caching reverse proxy.

The Go sources are shallowly embedded: pure functions become Lean functions,
wall-clock instants become integers (time.Unix(0,0) is 0), Go maps become
association lists whose list order models the iteration order, and fallible
or panicking code returns Except values.
-/

namespace UplinkRelay

/-- Go wall-clock instants, as integers; the unit (seconds or nanoseconds) is
noted at each use site. -/
abbrev GoTime := Int

/-- Shallow embedding of cache.IndefiniteTimestamp, which is time.Unix(0,0). -/
def IndefiniteTimestamp : GoTime := 0

/-- Go run-time panics that the embedded code can raise. -/
inductive GoPanic
  | sliceOutOfRange
  | interfaceConversion
  | nilPointerDereference
deriving DecidableEq, Repr

/-- Go map read m[k] for string-keyed maps, as an association-list lookup. -/
def goMapGet {α : Type} (m : List (String × α)) (k : String) : Option α :=
  (m.find? (fun p => p.1 == k)).map (fun p => p.2)

/-- Go map delete(m, k). -/
def goMapDelete {α : Type} (m : List (String × α)) (k : String) : List (String × α) :=
  m.filter (fun p => !(p.1 == k))

/-- Go map assignment m[k] = v: replace the binding when the key is present,
otherwise add it. -/
def goMapSet {α : Type} (m : List (String × α)) (k : String) (v : α) : List (String × α) :=
  if (m.find? (fun p => p.1 == k)).isSome then
    m.map (fun p => if p.1 == k then (k, v) else p)
  else m ++ [(k, v)]

/-! ## Tiered cache (src/tiered_cache/tiered.go) -/

/-- One layer of the tiered cache, as an association list from keys to the
stored content strings (the Set signature takes content as a string). -/
abbrev LayerStore := List (String × String)

/-- A layer read: get(key) returning (content, ok). -/
def layerGet (layer : LayerStore) (key : String) : Option String :=
  goMapGet layer key

/-- A back-fill write the Get goroutine would perform:
(missed layer index, key, content, duration). -/
abbrev BackfillWrite := Nat × String × String × Int

/-- The probe loop of TieredCache.Get. The Except error constructor carries
the early Go return content, true executed on the first hit; note that in
the source this return fires before the back-fill block, so the assignment
updateContent = content just before it is dead. The ok constructor carries
the fallthrough state: the missed layer indices and updateContent. -/
def tieredGetLoop (key : String) :
    List LayerStore → Nat → List Nat → Option String →
    Except String (List Nat × Option String)
  | [], _, missed, updateContent => .ok (missed, updateContent)
  | layer :: rest, index, missed, updateContent =>
    match layerGet layer key with
    | some content => .error content
    | none => tieredGetLoop key rest (index + 1) (missed ++ [index]) updateContent

/-- Shallow embedding of TieredCache.Get: the Go result (content, ok) paired
with the list of back-fill writes performed by the spawned goroutine, which is
guarded by len(missedCaches) > 0 and len(updateContent) > 0. -/
def tieredGet (layers : List LayerStore) (key : String) (defaultDuration : Int) :
    (Option String × Bool) × List BackfillWrite :=
  match tieredGetLoop key layers 0 [] none with
  | .error content => ((some content, true), [])
  | .ok (missed, updateContent) =>
    match updateContent with
    | some c =>
      if missed.length > 0 ∧ c.length > 0 then
        ((none, false), missed.map (fun i => (i, key, c, defaultDuration)))
      else ((none, false), [])
    | none => ((none, false), [])

/-- The write loop of TieredCache.Set: err is reassigned from every layer
write in order; the argument list holds each layer write outcome (none is
success, some msg is that layer error). -/
def tieredSetLoop : Option String → List (Option String) → Option String
  | err, [] => err
  | _, outcome :: rest => tieredSetLoop outcome rest

/-- Shallow embedding of TieredCache.Set, abstracted over the per-layer
write outcomes: the returned value is the final state of err. -/
def tieredSet (outcomes : List (Option String)) : Option String :=
  tieredSetLoop none outcomes

/-! ## Memory cache (src/unnamed/part_015 and src/cache/cache.go) -/

/-- An entry of the memory cache map (cache.CacheItem as the memory layer
stores it: content bytes and an expiration instant, in seconds). -/
structure MemCacheItem where
  content : String
  expiration : GoTime
deriving DecidableEq, Repr

/-- Shallow embedding of cache.isIndefinite. -/
def isIndefinite (expirationTime : GoTime) : Bool :=
  expirationTime == IndefiniteTimestamp

/-- Shallow embedding of cache.timeBeforeWithIndefinite. -/
def timeBeforeWithIndefinite (expirationTime compareTo : GoTime) : Bool :=
  expirationTime < compareTo && !(isIndefinite expirationTime)

/-- The MemoryCache state: the items map (association list in iteration
order), the declared maximum and the running item counter. -/
structure MemoryCache where
  items : List (String × MemCacheItem)
  maxItems : Int
  currentItems : Int
deriving DecidableEq, Repr

/-- One step of the eviction scan in MemoryCache.Set, tracking the pair
(oldestKey, oldestExpiration); oldestKey starts as the empty string and
oldestExpiration as the zero time. -/
def evictScanStep (acc : String × GoTime) (p : String × MemCacheItem) : String × GoTime :=
  if acc.1 == "" || timeBeforeWithIndefinite p.2.expiration acc.2 then
    if isIndefinite p.2.expiration then acc else (p.1, p.2.expiration)
  else acc

/-- The full eviction scan over the items map. -/
def evictScan (items : List (String × MemCacheItem)) : String × GoTime :=
  items.foldl evictScanStep ("", 0)

/-- The expiration MemoryCache.Set computes: now plus the duration in
seconds, overridden by the sentinel when the duration is -1. -/
def memSetExpiration (duration : Int) (now : GoTime) : GoTime :=
  if duration == -1 then IndefiniteTimestamp else now + duration

/-- Shallow embedding of MemoryCache.Set: when currentItems has reached
maxItems, run the eviction scan and delete the resulting key (the Go delete
of a missing key, in particular of the initial empty string, is a no-op while
currentItems is still decremented); then store the new entry and increment
currentItems. now passes time.Now(). -/
def memSet (c : MemoryCache) (key content : String) (duration : Int) (now : GoTime) :
    MemoryCache :=
  let c1 :=
    if c.maxItems ≤ c.currentItems then
      { c with items := goMapDelete c.items (evictScan c.items).1,
               currentItems := c.currentItems - 1 }
    else c
  { c1 with items := goMapSet c1.items key ⟨content, memSetExpiration duration now⟩,
            currentItems := c1.currentItems + 1 }

/-- The number of unpinned (non-sentinel-expiration) items in a map. -/
def countUnpinned (items : List (String × MemCacheItem)) : Nat :=
  (items.filter (fun p => !(isIndefinite p.2.expiration))).length

/-- One insert operation for the capacity invariant. -/
structure MemOp where
  key : String
  content : String
  duration : Int
  now : GoTime

/-- The expiration the entry of an insert receives. -/
def MemOp.expiration (op : MemOp) : GoTime :=
  memSetExpiration op.duration op.now

/-- Run a sequence of inserts against a fresh memory cache of capacity N. -/
def runInserts (N : Int) (ops : List MemOp) : MemoryCache :=
  ops.foldl (fun c op => memSet c op.key op.content op.duration op.now) ⟨[], N, 0⟩

/-- The reachability invariant of the capacity argument: the item count
bounds the map length, stays at most the capacity, is nonpositive on an
empty map, and every resident entry is unpinned. -/
def MemInv (N : Int) (c : MemoryCache) : Prop :=
  c.maxItems = N
  ∧ (c.items.length : Int) ≤ c.currentItems
  ∧ c.currentItems ≤ N
  ∧ (c.items = [] → c.currentItems ≤ 0)
  ∧ (∀ p ∈ c.items, isIndefinite p.2.expiration = false)

/-! ## CacheItem and UpdateNewest (src/cache/cache.go) -/

/-- The cached envelope cache.CacheItem: content bytes, expiration,
hex hash, last-modified instant, and the uplink version token. -/
structure CacheItem where
  content : String
  expiration : GoTime
  hash : String
  lastModified : GoTime
  id : String
deriving DecidableEq, Repr

/-- The zero-value entry UpdateNewest substitutes when the default-key slot
misses: nil content, indefinite timestamps, empty hash and id. -/
def emptyFirstEntry : CacheItem :=
  ⟨"", IndefiniteTimestamp, "", IndefiniteTimestamp, ""⟩

/-- Shallow embedding of cache.UpdateNewest on the default-key slot. The
slot holds the JSON-marshalled entry in the source; marshalling round-trips,
so the slot is modeled as an optional CacheItem directly. Content nil or of
length zero returns with no write; otherwise the stored entry (or the
zero-value default on a miss) is compared, and the slot is replaced exactly
when the passed item is strictly newer and has a different hash. -/
def UpdateNewest (slot : Option CacheItem) (passedItem : CacheItem) : Option CacheItem :=
  if passedItem.content = "" then slot
  else
    let firstEntry := slot.getD emptyFirstEntry
    if firstEntry.lastModified < passedItem.lastModified ∧ firstEntry.hash ≠ passedItem.hash
    then some passedItem
    else slot

/-! ## DeleteWithPrefix on the memory and filesystem layers
(src/unnamed/part_015 and src/unnamed/part_003) -/

/-- Go string slicing s[:n]: the first n bytes when n is at most the length,
and a run-time panic otherwise. -/
def goSliceTo (s : String) (n : Nat) : Except GoPanic String :=
  if n ≤ s.length then .ok ⟨s.data.take n⟩ else .error .sliceOutOfRange

/-- Shallow embedding of the memory-layer prefix deletion: iterate the
entries (map iteration modeled as list order), compare key[:len(pfx)] with
pfx and drop the matches; the slice panics on a key shorter than pfx. The
currentItems decrements are not modeled here. -/
def memDeleteWithPfx (items : List (String × MemCacheItem)) (pfx : String) :
    Except GoPanic (List (String × MemCacheItem)) :=
  match items with
  | [] => .ok []
  | (k, v) :: rest =>
    match goSliceTo k pfx.length with
    | .error e => .error e
    | .ok s =>
      match memDeleteWithPfx rest pfx with
      | .error e => .error e
      | .ok rest2 => .ok (if s = pfx then rest2 else (k, v) :: rest2)

/-- A directory entry as os.ReadDir reports it: its name, whether it is a
directory, and whether it is a regular file. -/
structure DirEntry where
  name : String
  dir : Bool
  regular : Bool
deriving DecidableEq, Repr

/-- Shallow embedding of the filesystem-layer prefix deletion: directories
and non-regular entries are skipped before the slice, regular files whose
name[:len(pfx)] equals pfx are removed (os.Remove modeled as dropping the
entry; its error path is not modeled). -/
def fsDeleteWithPfx (entries : List DirEntry) (pfx : String) :
    Except GoPanic (List DirEntry) :=
  match entries with
  | [] => .ok []
  | e :: rest =>
    if e.dir then (fsDeleteWithPfx rest pfx).map (fun r => e :: r)
    else if !e.regular then (fsDeleteWithPfx rest pfx).map (fun r => e :: r)
    else
      match goSliceTo e.name pfx.length with
      | .error p => .error p
      | .ok s =>
        match fsDeleteWithPfx rest pfx with
        | .error p => .error p
        | .ok rest2 => .ok (if s = pfx then rest2 else e :: rest2)

/-! ## Schema cache hit (src/unnamed/part_029, handleCacheHit) -/

/-- Go time.Round for an instant t (nanoseconds since the zero time) and a
duration d (nanoseconds): the nearest multiple of d, halfway rounding up
(away from zero); a nonpositive d returns t unchanged. -/
def goTimeRound (t d : Nat) : Nat :=
  if d = 0 then t
  else if 2 * (t % d) < d then t - t % d else t + (d - t % d)

/-- The rounding the claim asserts: truncation down to a multiple of d.
This definition follows the claim wording, for comparison with the source
embedding; it is not part of the code. -/
def goTimeTruncate (t d : Nat) : Nat :=
  if d = 0 then t else t - t % d

/-- The synthesized RouterConfigResult (or Unchanged) reply of the schema
branch; the id field keeps the instant itself since RFC3339 formatting is
injective on instants. -/
structure RouterConfigReply where
  id : Nat
  typename : String
  supergraphSdl : String
  minDelaySeconds : Int
deriving DecidableEq, Repr

/-- Shallow embedding of the schema branch of handleCacheHit: typename is
Unchanged exactly on empty content, and the id is time.Now().UTC() rounded
with time.Round to the cache duration (seconds, scaled to nanoseconds). -/
def schemaCacheHit (content : String) (now : Nat) (cacheDurationSeconds : Nat) :
    RouterConfigReply :=
  { id := goTimeRound now (cacheDurationSeconds * 1000000000)
  , typename := if content.length = 0 then "Unchanged" else "RouterConfigResult"
  , supergraphSdl := content
  , minDelaySeconds := 30 }

/-! ## Persisted queries: DecodeID and the cache-hit branch
(src/persisted_queries/persisted_queries.go, src/unnamed/part_029) -/

/-- The numeric value of a digit run. -/
def digitsVal (ds : List Char) : Nat :=
  ds.foldl (fun n c => 10 * n + (c.toNat - 48)) 0

/-- The unsigned core of strconv.Atoi: at least one character, all digits
(the int64 range check is elided). -/
def goAtoiCore (ds : List Char) : Option Int :=
  if ds.isEmpty then none
  else if ds.all (fun c => c.isDigit) then some ((digitsVal ds : Nat) : Int)
  else none

/-- Shallow embedding of strconv.Atoi: an optional sign followed by the
digit core; everything else is an error. -/
def goAtoi (s : String) : Option Int :=
  match s.data with
  | '-' :: rest => (goAtoiCore rest).map (fun n => -n)
  | '+' :: rest => goAtoiCore rest
  | _ => goAtoiCore s.data

/-- Character-level splitting on a separator, matching Go strings.Split for
a one-character separator (the empty input gives one empty field). -/
def splitOnChar (sep : Char) : List Char → List (List Char)
  | [] => [[]]
  | c :: rest =>
    let r := splitOnChar sep rest
    if c = sep then [] :: r
    else
      match r with
      | [] => [[c]]
      | h :: t => (c :: h) :: t

/-- Go strings.Split(s, sep) for a one-character separator. -/
def goSplit (s : String) (sep : Char) : List String :=
  (splitOnChar sep s.data).map (fun l => ⟨l⟩)

/-- Shallow embedding of persistedqueries.DecodeID: split on the colon,
demand exactly two parts, Atoi the second; every failure gives ("", -1). -/
def DecodeID (id : String) : String × Int :=
  match goSplit id ':' with
  | [base, ver] =>
    match goAtoi ver with
    | some v => (base, v)
    | none => ("", -1)
  | _ => ("", -1)

/-- A chunk descriptor of the persisted-query manifest. -/
structure PQChunk where
  id : String
  urls : List String
deriving DecidableEq, Repr

/-- The persistedQueries payload of the manifest envelope; chunks is
optional because the source sets it to nil for Unchanged replies. -/
structure PQManifest where
  id : String
  typename : String
  minDelaySeconds : Int
  chunks : Option (List PQChunk)
deriving DecidableEq, Repr

/-- Shallow embedding of the persisted-queries branch of handleCacheHit:
empty cached content synthesizes a default Unchanged reply from the cache
item id; otherwise the stored manifest is decoded (JSON decoding modeled as
structural identity). Then the cached id and the request ifAfterId are both
run through DecodeID, and when the bases agree and the after version is at
least the cached version the reply becomes Unchanged with cleared chunks. -/
def pqCacheHit (itemId : String) (content : Option PQManifest) (ifAfterId : String) :
    PQManifest :=
  let cachedResponse :=
    match content with
    | none => { id := itemId, typename := "Unchanged", minDelaySeconds := 60, chunks := none }
    | some m => m
  let cached := DecodeID cachedResponse.id
  let after := DecodeID ifAfterId
  if cached.1 = after.1 ∧ after.2 ≥ cached.2 then
    { cachedResponse with typename := "Unchanged", chunks := none }
  else cachedResponse

/-! ## Cache keys, pinning, and the relay handler
(src/cache/cache.go, src/unnamed/part_020, src/unnamed/part_029) -/

/-- Modelled from the spec: the uplink operation-name constant for the
schema query; the file declaring the uplink constants is not among the
sources, but the spec fixes the three operation names and every caller
(polling, fetchers, relay) uses these strings. -/
def SupergraphQuery : String := "SupergraphSdlQuery"

/-- Modelled from the spec: the uplink operation-name constant for the
license query. -/
def LicenseQuery : String := "LicenseQuery"

/-- Modelled from the spec: the uplink operation-name constant for the
persisted-queries manifest query. -/
def PersistedQueriesQuery : String := "PersistedQueriesManifestQuery"

/-- Shallow embedding of pinning.OperationMapping; a Go map read of an
unmapped name gives the zero value. -/
def OperationMapping (opName : String) : String :=
  if opName = SupergraphQuery then "SupergraphPinned"
  else if opName = LicenseQuery then "LicensePinned"
  else if opName = PersistedQueriesQuery then "PersistedQueriesPinned"
  else ""

/-- Shallow embedding of util.ParseGraphRef: split on the at sign and demand
exactly two parts. -/
def ParseGraphRef (graphRef : String) : Option (String × String) :=
  match goSplit graphRef '@' with
  | [g, v] => some (g, v)
  | _ => none

/-- A dynamic JSON value held in the variables map, as Go interface values
after json.Unmarshal; vnull stands for the nil interface (JSON null). -/
inductive GoVal
  | vnull
  | vstr (s : String)
  | vnum (n : Int)
  | vbool (b : Bool)
deriving DecidableEq, Repr

/-- The Go type assertion v.(string): the string, or an interface-conversion
run-time panic on any other dynamic type, including nil. -/
def assertString : GoVal → Except GoPanic String
  | .vstr s => .ok s
  | _ => .error .interfaceConversion

/-- A textual rendering of a dynamic value (the shape fmt.Sprint gives). -/
def goValRender : GoVal → String
  | .vnull => "<nil>"
  | .vstr s => s
  | .vnum n => toString n
  | .vbool b => toString b

/-- Textual fingerprint of a variables map, standing in injectively for the
hex SHA-256 that util.HashString computes over fmt.Sprint of the map. -/
def varsFingerprint (vars : List (String × GoVal)) : String :=
  vars.foldl (fun acc p => acc ++ "(" ++ p.1 ++ " " ++ goValRender p.2 ++ ")") "map"

/-- Shallow embedding of cache.MakeCachePrefix: parse the graphRef and join
with colons; a parse failure gives the empty key. -/
def MakeCachePfx (graphRef opName : String) : String :=
  match ParseGraphRef graphRef with
  | none => ""
  | some (g, v) => g ++ ":" ++ v ++ ":" ++ opName

/-- Shallow embedding of cache.MakeCacheKey: the bare cache prefix, with the
fingerprint of any extra arguments appended. -/
def MakeCacheKey (graphRef opName : String) (extraArgs : List (String × GoVal)) : String :=
  if extraArgs.isEmpty then MakeCachePfx graphRef opName
  else MakeCachePfx graphRef opName ++ ":" ++ varsFingerprint extraArgs

/-- Shallow embedding of pinning.HandlePinnedEntry (src/unnamed/part_020).
The pinned store maps cache keys to entries (JSON unmarshalling of a stored
entry is modeled as identity); parseTime passes time.Parse of the layout
2006-01-02T15:04:05Z0700 (standard library, elided); now passes time.Now().
A result of none covers the Go (nil, nil) and (nil, err) returns, since the
caller in RelayHandler discards the error. -/
def HandlePinnedEntry (parseTime : String → Option GoTime) (now : GoTime)
    (store : List (String × CacheItem))
    (graphID variantID opName ifAfterID : String) : Option CacheItem :=
  match goMapGet store
      (MakeCacheKey (graphID ++ "@" ++ variantID) (OperationMapping opName) []) with
  | none => none
  | some entry =>
    if ifAfterID = "" then some entry
    else if opName = PersistedQueriesQuery then
      if now < entry.lastModified then some entry else none
    else
      match parseTime ifAfterID with
      | none => none
      | some t =>
        if opName = LicenseQuery then some entry
        else if t < entry.lastModified then some entry
        else some { entry with content := "" }

/-- Shallow embedding of the persisted-queries pinned branch of RelayHandler
(src/unnamed/part_029): the error from HandlePinnedEntry is discarded and
the entry pointer is handed to handleCacheHit, whose persisted-queries
branch dereferences it, so a missing entry is a nil-pointer panic.
decodeManifest stands for json.Unmarshal of nonempty stored content. -/
def pinnedPQFallback (parseTime : String → Option GoTime) (now : GoTime)
    (store : List (String × CacheItem)) (graphID variantID ifAfterId : String)
    (decodeManifest : String → PQManifest) : Except GoPanic PQManifest :=
  match HandlePinnedEntry parseTime now store graphID variantID
      PersistedQueriesQuery ifAfterId with
  | none => .error .nilPointerDereference
  | some entry =>
    .ok (pqCacheHit entry.id
      (if entry.content = "" then none else some (decodeManifest entry.content)) ifAfterId)

/-! ## Persisted-query chunk URL rewriting
(src/persisted_queries/persisted_queries.go, CachePersistedQueryChunkData) -/

/-- Whether pre begins s (strings.HasPrefix). -/
def strStarts (s pre : String) : Bool :=
  pre.data.isPrefixOf s.data

/-- Whether suf ends s (strings.HasSuffix). -/
def strEnds (s suf : String) : Bool :=
  suf.data.isSuffixOf s.data

/-- A parsed URL (net/url.URL restricted to scheme, host and path; the
public URLs this code handles carry no query, fragment or userinfo). -/
structure GoURL where
  scheme : String
  host : String
  path : String
deriving DecidableEq, Repr

/-- Go path.Clean restricted to inputs without dot segments (the only paths
this code joins): collapse repeated slashes and drop the trailing one,
keeping a leading slash. -/
def goPathClean (s : String) : String :=
  ⟨'/' :: List.intercalate ['/']
    ((splitOnChar '/' s.data).filter (fun seg => !seg.isEmpty))⟩

/-- Go url.URL.JoinPath with one element: join the escaped path and the
element with path.Join, keeping the result relative when the receiver path
was relative, and preserving one trailing slash of the last element. -/
def joinPath (u : GoURL) (elem : String) : GoURL :=
  let p :=
    if strStarts u.path "/" then goPathClean (u.path ++ "/" ++ elem)
    else ⟨(goPathClean (("/" ++ u.path) ++ "/" ++ elem)).data.drop 1⟩
  let p2 := if strEnds elem "/" && !(strEnds p "/") then p ++ "/" else p
  { u with path := p2 }

/-- Go url.URL.String for scheme://host URLs: a relative path gains the
separating slash after the host. -/
def urlString (u : GoURL) : String :=
  u.scheme ++ "://" ++ u.host ++
    (if u.path ≠ "" ∧ ¬ strStarts u.path "/" then "/" ++ u.path else u.path)

/-- Go url.Parse restricted to scheme://host[/path] shapes, which covers the
configured public URLs this code parses. -/
def parseSimpleUrl (s : String) : Option GoURL :=
  let sch := s.data.takeWhile (fun c => c ≠ ':')
  match s.data.dropWhile (fun c => c ≠ ':') with
  | ':' :: '/' :: '/' :: rest =>
    some ⟨⟨sch⟩, ⟨rest.takeWhile (fun c => c ≠ '/')⟩, ⟨rest.dropWhile (fun c => c ≠ '/')⟩⟩
  | _ => none

/-- The route under which cached chunks are served. -/
def pathPfx : String := "/persisted-queries/"

/-- The inner URL loop of CachePersistedQueryChunkData, threading the
mutated parsedUrl across iterations exactly as the source does: each
iteration forces the scheme, reassigns parsedUrl to parsedUrl.JoinPath of
the route, and appends its rendered string plus chunk id and index. The
fetch, zlib compression and cache write of the chunk body do not affect the
produced URLs and are elided. -/
def rewriteChunkUrls (tls : Bool) (chunkID : String) :
    GoURL → List String → Nat → GoURL × List String
  | parsedUrl, [], _ => (parsedUrl, [])
  | parsedUrl, _ :: rest, idx =>
    let protocol := if tls then "https" else parsedUrl.scheme
    let u1 : GoURL := { parsedUrl with scheme := protocol }
    let u2 := joinPath u1 pathPfx
    let newUrl := urlString u2 ++ chunkID ++ "?i=" ++ toString idx
    let r := rewriteChunkUrls tls chunkID u2 rest (idx + 1)
    (r.1, newUrl :: r.2)

/-- The outer chunk loop, still threading parsedUrl. -/
def rewriteChunksLoop (tls : Bool) : GoURL → List PQChunk → GoURL × List PQChunk
  | parsedUrl, [] => (parsedUrl, [])
  | parsedUrl, chunk :: rest =>
    let r1 := rewriteChunkUrls tls chunk.id parsedUrl chunk.urls 0
    let r2 := rewriteChunksLoop tls r1.1 rest
    (r2.1, { chunk with urls := r1.2 } :: r2.2)

/-- Shallow embedding of CachePersistedQueryChunkData: pass chunks through
untouched when caching is off or no public URL is set, reject a public URL
not starting with http, parse it once, and run the rewrite loops. -/
def CachePersistedQueryChunkData (cacheEnabled : Bool)
    (publicURL tlsCertFile tlsKeyFile : String) (chunks : List PQChunk) :
    Except String (List PQChunk) :=
  if ¬ cacheEnabled ∨ publicURL = "" then .ok chunks
  else if ¬ strStarts publicURL "http" then
    .error ("invalid publicURL: " ++ publicURL)
  else
    match parseSimpleUrl publicURL with
    | none => .error "invalid URL"
    | some parsedUrl =>
      .ok (rewriteChunksLoop ((tlsKeyFile != "") || (tlsCertFile != "")) parsedUrl chunks).2

/-- The per-graph configuration record config.SupergraphConfig (the fields
the relay handler reads). -/
structure SupergraphConfig where
  graphRef : String
  launchID : String
  persistedQueryVersion : String
  offlineLicense : String
deriving DecidableEq, Repr

/-- The configuration the relay handler reads. -/
structure RelayConfig where
  cacheEnabled : Bool
  cacheDuration : Int
  supergraphs : List SupergraphConfig
deriving DecidableEq, Repr

/-- A parsed router request body. -/
structure RelayRequest where
  query : String
  vars : List (String × GoVal)
  operationName : String
deriving DecidableEq, Repr

/-- The outcome classes of one relay request (response bodies abstracted). -/
inductive RelayOutcome
  | badRequest
  | internalError
  | cacheHitServed (key : String)
  | pinnedServed (key : String)
  | proxied (key : String)
deriving DecidableEq, Repr

/-- Shallow embedding of config.FindSupergraphConfigFromGraphRef. -/
def FindSupergraphConfig (supergraphs : List SupergraphConfig) (graphRef : String) :
    Option SupergraphConfig :=
  supergraphs.find? (fun sc => sc.graphRef == graphRef)

/-- Shallow embedding of the front of RelayHandler (src/unnamed/part_029):
the 400 checks, the graph_ref and ifAfterId type assertions, apiKey removal,
ifAfterId coercion, cache key construction, the cache-hit dispatch, and the
three pinned branches (whose served bodies are abstracted to outcome tags;
the persisted-queries pinned body is modeled by pinnedPQFallback). A body
failing to parse as JSON is outside this model, which starts from the parsed
request. -/
def RelayHandler (cfg : RelayConfig) (cacheStore : List (String × CacheItem))
    (req : RelayRequest) : Except GoPanic RelayOutcome :=
  let graphRefVal := (goMapGet req.vars "graph_ref").getD .vnull
  if graphRefVal = .vnull then .ok .badRequest
  else
    match assertString graphRefVal with
    | .error p => .error p
    | .ok graphRef =>
      match ParseGraphRef graphRef with
      | none => .ok .badRequest
      | some _ =>
        let vars1 := goMapDelete req.vars "apiKey"
        let vars2 :=
          if (goMapGet vars1 "ifAfterId").getD .vnull = .vnull
          then goMapSet vars1 "ifAfterId" (.vstr "") else vars1
        let cacheKey := MakeCacheKey graphRef req.operationName vars2
        if cfg.cacheEnabled then
          match goMapGet cacheStore cacheKey with
          | some _ =>
            match assertString ((goMapGet vars2 "ifAfterId").getD .vnull) with
            | .error p => .error p
            | .ok _ => .ok (.cacheHitServed cacheKey)
          | none =>
            match FindSupergraphConfig cfg.supergraphs graphRef with
            | some sc =>
              if req.operationName = SupergraphQuery ∧ sc.launchID ≠ "" then
                match assertString ((goMapGet vars2 "ifAfterId").getD .vnull) with
                | .error p => .error p
                | .ok _ => .ok (.pinnedServed cacheKey)
              else if req.operationName = LicenseQuery ∧ sc.offlineLicense ≠ "" then
                match assertString ((goMapGet vars2 "ifAfterId").getD .vnull) with
                | .error p => .error p
                | .ok _ => .ok (.pinnedServed cacheKey)
              else if req.operationName = PersistedQueriesQuery
                  ∧ sc.persistedQueryVersion ≠ "" then
                match assertString ((goMapGet vars2 "ifAfterId").getD .vnull) with
                | .error p => .error p
                | .ok _ => .ok (.pinnedServed cacheKey)
              else .ok (.proxied cacheKey)
            | none => .ok (.proxied cacheKey)
        else .ok (.proxied cacheKey)

end UplinkRelay

namespace UplinkRelay

/-- The loop of TieredCache.Get never changes updateContent on the
fallthrough path: it starts empty and the only assignment to it is
immediately followed by the early return. -/
theorem tieredGetLoop_updateContent (key : String) :
    ∀ (layers : List LayerStore) (index : Nat) (missed : List Nat) (uc : Option String)
      (missedOut : List Nat) (ucOut : Option String),
      tieredGetLoop key layers index missed uc = .ok (missedOut, ucOut) → ucOut = uc := by
  intro layers
  induction layers with
  | nil =>
    intro index missed uc missedOut ucOut h
    simp only [tieredGetLoop] at h
    cases h
    rfl
  | cons layer rest ih =>
    intro index missed uc missedOut ucOut h
    simp only [tieredGetLoop] at h
    cases hg : layerGet layer key with
    | some content => rw [hg] at h; cases h
    | none => rw [hg] at h; exact ih _ _ _ _ _ h

/-- Claim C1. The claim states that a Get hitting at layer Li with i greater
than 0 back-fills every missed earlier layer. In the source, the first hit
returns before the back-fill block is reached, and on a full miss the guard
variable updateContent is still empty, so the back-fill goroutine never runs:
every Get performs zero back-fill writes. The second conjunct evaluates the
code at the failing input (layer 0 empty, layer 1 holding the key): the value
is returned from layer 1 and no write to layer 0 happens. -/
theorem tieredGet_backfill_is_dead_code :
    (∀ (layers : List LayerStore) (key : String) (d : Int),
        (tieredGet layers key d).2 = [])
    ∧ tieredGet [[], [("k", "v")]] "k" 60 = ((some "v", true), []) := by
  constructor
  · intro layers key d
    unfold tieredGet
    cases h : tieredGetLoop key layers 0 [] none with
    | error content => rfl
    | ok pair =>
      obtain ⟨missed, uc⟩ := pair
      have huc : uc = none := tieredGetLoop_updateContent key layers 0 [] none missed uc h
      subst huc
      rfl
  · rfl

/-- Claim C5. The claim states that TieredCache.Set returns the last error
observed among all layer writes, so an early layer error is still reported
when later layers succeed. In the source err is unconditionally reassigned
from every layer write, so the function returns the outcome of the final
layer only: with layer 0 failing and layer 1 succeeding, Set returns nil. -/
theorem tieredSet_drops_early_error :
    tieredSet [some "disk full", none] = none := rfl

/-- Claim C6 counterexample. Two concrete runs refute the claim as stated.
First, with a resident empty-string key: the map holds the unpinned entries
("" at expiration 3, "x" at expiration 5) and is at capacity 2; the insert
evicts "x" even though "" has the earliest non-sentinel expiration, because
the scan uses the empty string as its not-yet-found sentinel and so keeps
overwriting its candidate after picking the key "". Second, a cache created
with capacity 0: a single insert of an unpinned key leaves 1 unpinned item,
exceeding the capacity. -/
theorem memSet_wrong_eviction_and_zero_capacity :
    (goMapGet (memSet ⟨[("", ⟨"a", 3⟩), ("x", ⟨"b", 5⟩)], 2, 2⟩ "y" "c" 10 100).items "x"
        = none
      ∧ goMapGet (memSet ⟨[("", ⟨"a", 3⟩), ("x", ⟨"b", 5⟩)], 2, 2⟩ "y" "c" 10 100).items ""
        = some ⟨"a", 3⟩
      ∧ isIndefinite 3 = false ∧ (3 : GoTime) < 5)
    ∧ countUnpinned (runInserts 0 [⟨"a", "v", 10, 100⟩]).items = 1 := by decide

/-- Each step of the eviction scan either keeps the accumulator or moves to
the scanned entry. -/
theorem evictScanStep_cases (acc : String × GoTime) (p : String × MemCacheItem) :
    evictScanStep acc p = acc ∨ evictScanStep acc p = (p.1, p.2.expiration) := by
  unfold evictScanStep
  split
  · split
    · exact Or.inl rfl
    · exact Or.inr rfl
  · exact Or.inl rfl

/-- With a non-sentinel accumulator key, the step is a strict-minimum update
over non-sentinel expirations. -/
theorem evictScanStep_ne (acc : String × GoTime) (p : String × MemCacheItem)
    (ha : acc.1 ≠ "") :
    evictScanStep acc p =
      if p.2.expiration < acc.2 ∧ isIndefinite p.2.expiration = false
      then (p.1, p.2.expiration) else acc := by
  have hbeq : (acc.1 == "") = false := by
    simp only [beq_eq_false_iff_ne, ne_eq]
    exact ha
  by_cases hcond : p.2.expiration < acc.2 ∧ isIndefinite p.2.expiration = false
  · rw [if_pos hcond]
    unfold evictScanStep timeBeforeWithIndefinite
    rw [hbeq]
    simp [hcond.1, hcond.2]
  · rw [if_neg hcond]
    unfold evictScanStep timeBeforeWithIndefinite
    rw [hbeq]
    by_cases hind : isIndefinite p.2.expiration = true
    · simp [hind]
    · have hind' : isIndefinite p.2.expiration = false := by
        cases h : isIndefinite p.2.expiration
        · rfl
        · exact absurd h hind
      have hnlt : ¬ p.2.expiration < acc.2 := fun hlt => hcond ⟨hlt, hind'⟩
      simp [hind', hnlt]

/-- Main scan lemma for a non-sentinel accumulator: the fold keeps a
non-sentinel key, returns either the accumulator or some scanned entry, never
increases the tracked expiration, and ends at most every non-sentinel
expiration it scanned. -/
theorem evictScan_foldl_ne :
    ∀ (items : List (String × MemCacheItem)) (acc : String × GoTime),
      (∀ p ∈ items, p.1 ≠ "") → acc.1 ≠ "" → isIndefinite acc.2 = false →
      (items.foldl evictScanStep acc).1 ≠ ""
      ∧ isIndefinite (items.foldl evictScanStep acc).2 = false
      ∧ (items.foldl evictScanStep acc).2 ≤ acc.2
      ∧ (items.foldl evictScanStep acc = acc
          ∨ ∃ p ∈ items, items.foldl evictScanStep acc = (p.1, p.2.expiration))
      ∧ (∀ q ∈ items, isIndefinite q.2.expiration = false →
          (items.foldl evictScanStep acc).2 ≤ q.2.expiration) := by
  intro items
  induction items with
  | nil =>
    intro acc _ ha hi
    exact ⟨ha, hi, le_refl _, Or.inl rfl, by intro q hq; cases hq⟩
  | cons p rest ih =>
    intro acc hk ha hi
    have hkp : p.1 ≠ "" := hk p (List.mem_cons_self p rest)
    have hkr : ∀ q ∈ rest, q.1 ≠ "" := fun q hq => hk q (List.mem_cons_of_mem p hq)
    rw [List.foldl_cons]
    rw [evictScanStep_ne acc p ha]
    split
    · rename_i hcond
      obtain ⟨hlt, hind⟩ := hcond
      obtain ⟨r1, r2, r3, r4, r5⟩ := ih (p.1, p.2.expiration) hkr hkp hind
      refine ⟨r1, r2, le_trans r3 (le_of_lt hlt), ?_, ?_⟩
      · rcases r4 with h | ⟨q, hq, hqe⟩
        · exact Or.inr ⟨p, List.mem_cons_self p rest, h⟩
        · exact Or.inr ⟨q, List.mem_cons_of_mem p hq, hqe⟩
      · intro q hq hqind
        rcases List.mem_cons.mp hq with rfl | hq
        · exact r3
        · exact r5 q hq hqind
    · rename_i hcond
      obtain ⟨r1, r2, r3, r4, r5⟩ := ih acc hkr ha hi
      refine ⟨r1, r2, r3, ?_, ?_⟩
      · rcases r4 with h | ⟨q, hq, hqe⟩
        · exact Or.inl h
        · exact Or.inr ⟨q, List.mem_cons_of_mem p hq, hqe⟩
      · intro q hq hqind
        rcases List.mem_cons.mp hq with rfl | hq
        · have hge : acc.2 ≤ q.2.expiration := by
            by_contra hno
            exact hcond ⟨lt_of_not_le hno, hqind⟩
          exact le_trans r3 hge
        · exact r5 q hq hqind

/-- Specification of the full eviction scan over maps whose keys are all
nonempty: either every entry is pinned and the scan returns the sentinel, or
it returns an entry of minimal non-sentinel expiration. -/
theorem evictScan_spec :
    ∀ (items : List (String × MemCacheItem)),
      (∀ p ∈ items, p.1 ≠ "") →
      ((∀ p ∈ items, isIndefinite p.2.expiration = true) ∧ evictScan items = ("", 0))
      ∨ (∃ p ∈ items, evictScan items = (p.1, p.2.expiration)
          ∧ isIndefinite p.2.expiration = false
          ∧ ∀ q ∈ items, isIndefinite q.2.expiration = false →
              p.2.expiration ≤ q.2.expiration) := by
  intro items
  induction items with
  | nil =>
    intro _
    refine Or.inl ⟨?_, rfl⟩
    intro p hp
    cases hp
  | cons p rest ih =>
    intro hk
    have hkp : p.1 ≠ "" := hk p (List.mem_cons_self p rest)
    have hkr : ∀ q ∈ rest, q.1 ≠ "" := fun q hq => hk q (List.mem_cons_of_mem p hq)
    unfold evictScan at *
    rw [List.foldl_cons]
    have hstep : evictScanStep ("", 0) p =
        if isIndefinite p.2.expiration then ("", 0) else (p.1, p.2.expiration) := by
      unfold evictScanStep
      simp
    rw [hstep]
    by_cases hind : isIndefinite p.2.expiration = true
    · rw [if_pos hind]
      rcases ih hkr with ⟨hall, heq⟩ | ⟨q, hq, hqe, hqind, hqmin⟩
      · refine Or.inl ⟨?_, heq⟩
        intro r hr
        rcases List.mem_cons.mp hr with rfl | hr
        · exact hind
        · exact hall r hr
      · refine Or.inr ⟨q, List.mem_cons_of_mem p hq, hqe, hqind, ?_⟩
        intro r hr hrind
        rcases List.mem_cons.mp hr with rfl | hr
        · rw [hind] at hrind; cases hrind
        · exact hqmin r hr hrind
    · rw [if_neg hind]
      have hind' : isIndefinite p.2.expiration = false := by
        cases h : isIndefinite p.2.expiration
        · rfl
        · exact absurd h hind
      obtain ⟨r1, r2, r3, r4, r5⟩ := evictScan_foldl_ne rest (p.1, p.2.expiration) hkr hkp hind'
      rcases r4 with h | ⟨q, hq, hqe⟩
      · refine Or.inr ⟨p, List.mem_cons_self p rest, h, hind', ?_⟩
        intro q hq hqind
        rcases List.mem_cons.mp hq with rfl | hq
        · exact le_refl _
        · have := r5 q hq hqind
          rw [h] at this
          exact this
      · refine Or.inr ⟨q, List.mem_cons_of_mem p hq, hqe, ?_, ?_⟩
        · rw [hqe] at r2; exact r2
        · intro r hr hrind
          rcases List.mem_cons.mp hr with rfl | hr
          · rw [hqe] at r3; exact r3
          · have := r5 r hr hrind
            rw [hqe] at this
            exact this

/-- A Go map assignment grows the map by at most one binding. -/
theorem goMapSet_length {α : Type} (m : List (String × α)) (k : String) (v : α) :
    (goMapSet m k v).length ≤ m.length + 1 := by
  unfold goMapSet
  split
  · rw [List.length_map]; omega
  · rw [List.length_append]; simp

/-- A Go map assignment never leaves the map empty. -/
theorem goMapSet_ne_nil {α : Type} (m : List (String × α)) (k : String) (v : α) :
    goMapSet m k v ≠ [] := by
  unfold goMapSet
  split
  · rename_i h
    intro hc
    rw [List.map_eq_nil_iff] at hc
    subst hc
    simp [List.find?] at h
  · intro hc
    rcases List.append_eq_nil.mp hc with ⟨_, h2⟩
    cases h2

/-- The eviction scan from any accumulator either keeps the accumulator or
lands on the key of some scanned entry. -/
theorem evictScan_origin :
    ∀ (items : List (String × MemCacheItem)) (acc : String × GoTime),
      items.foldl evictScanStep acc = acc
      ∨ ∃ p ∈ items, (items.foldl evictScanStep acc).1 = p.1 := by
  intro items
  induction items with
  | nil => intro acc; exact Or.inl rfl
  | cons p rest ih =>
    intro acc
    rw [List.foldl_cons]
    rcases evictScanStep_cases acc p with hs | hs
    · rw [hs]
      rcases ih acc with h | ⟨q, hq, hqe⟩
      · exact Or.inl h
      · exact Or.inr ⟨q, List.mem_cons_of_mem p hq, hqe⟩
    · rw [hs]
      rcases ih (p.1, p.2.expiration) with h | ⟨q, hq, hqe⟩
      · rw [h]; exact Or.inr ⟨p, List.mem_cons_self p rest, rfl⟩
      · exact Or.inr ⟨q, List.mem_cons_of_mem p hq, hqe⟩

/-- On a nonempty map whose head entry is unpinned, the eviction scan picks
the key of a resident entry. -/
theorem evictScan_mem (p : String × MemCacheItem) (rest : List (String × MemCacheItem))
    (hind : isIndefinite p.2.expiration = false) :
    ∃ q ∈ p :: rest, (evictScan (p :: rest)).1 = q.1 := by
  unfold evictScan
  rw [List.foldl_cons]
  have hstep : evictScanStep ("", 0) p = (p.1, p.2.expiration) := by
    unfold evictScanStep
    simp [hind]
  rw [hstep]
  rcases evictScan_origin rest (p.1, p.2.expiration) with h | ⟨q, hq, hqe⟩
  · rw [h]
    exact ⟨p, List.mem_cons_self p rest, rfl⟩
  · exact ⟨q, List.mem_cons_of_mem p hq, hqe⟩

/-- Deleting a resident key strictly shrinks the map. -/
theorem goMapDelete_length_lt (m : List (String × MemCacheItem)) (k : String)
    (h : ∃ p ∈ m, p.1 = k) : (goMapDelete m k).length < m.length := by
  obtain ⟨p, hp, hpk⟩ := h
  unfold goMapDelete
  exact List.length_filter_lt_length_iff_exists.mpr ⟨p, hp, by simp [hpk]⟩

/-- Deleting a key no entry holds leaves the map unchanged. -/
theorem goMapDelete_of_not_mem {α : Type} (m : List (String × α)) (k : String)
    (h : ∀ p ∈ m, p.1 ≠ k) : goMapDelete m k = m := by
  unfold goMapDelete
  rw [List.filter_eq_self]
  intro p hp
  simp [h p hp]

/-- Map assignment of an unpinned entry keeps every entry unpinned. -/
theorem goMapSet_unpinned (m : List (String × MemCacheItem)) (k : String)
    (v : MemCacheItem)
    (hm : ∀ p ∈ m, isIndefinite p.2.expiration = false)
    (hv : isIndefinite v.expiration = false) :
    ∀ p ∈ goMapSet m k v, isIndefinite p.2.expiration = false := by
  intro p hp
  unfold goMapSet at hp
  split at hp
  · rw [List.mem_map] at hp
    obtain ⟨q, hq, hqe⟩ := hp
    by_cases hqk : (q.1 == k) = true
    · rw [if_pos hqk] at hqe
      rw [← hqe]
      exact hv
    · rw [if_neg hqk] at hqe
      rw [← hqe]
      exact hm q hq
  · rw [List.mem_append] at hp
    rcases hp with hp | hp
    · exact hm p hp
    · rcases List.mem_singleton.mp hp with rfl
      exact hv

/-- Map deletion keeps every entry unpinned. -/
theorem goMapDelete_unpinned (m : List (String × MemCacheItem)) (k : String)
    (hm : ∀ p ∈ m, isIndefinite p.2.expiration = false) :
    ∀ p ∈ goMapDelete m k, isIndefinite p.2.expiration = false := by
  intro p hp
  unfold goMapDelete at hp
  exact hm p (List.mem_of_mem_filter hp)

/-- Projections of MemoryCache.Set in the at-capacity case. -/
theorem memSet_at_capacity (c : MemoryCache) (key content : String) (duration : Int)
    (now : GoTime) (h : c.maxItems ≤ c.currentItems) :
    (memSet c key content duration now).items
      = goMapSet (goMapDelete c.items (evictScan c.items).1) key
          ⟨content, memSetExpiration duration now⟩
    ∧ (memSet c key content duration now).currentItems = c.currentItems - 1 + 1
    ∧ (memSet c key content duration now).maxItems = c.maxItems := by
  simp only [memSet]
  rw [if_pos h]
  exact ⟨rfl, rfl, rfl⟩

/-- Projections of MemoryCache.Set in the below-capacity case. -/
theorem memSet_below_capacity (c : MemoryCache) (key content : String) (duration : Int)
    (now : GoTime) (h : ¬ c.maxItems ≤ c.currentItems) :
    (memSet c key content duration now).items
      = goMapSet c.items key ⟨content, memSetExpiration duration now⟩
    ∧ (memSet c key content duration now).currentItems = c.currentItems + 1
    ∧ (memSet c key content duration now).maxItems = c.maxItems := by
  simp only [memSet]
  rw [if_neg h]
  exact ⟨rfl, rfl, rfl⟩

/-- One unpinned insert preserves the invariant when the capacity is at
least one. -/
theorem memSet_preserves_inv (N : Int) (hN : 1 ≤ N) (c : MemoryCache) (op : MemOp)
    (hop : isIndefinite op.expiration = false) (hc : MemInv N c) :
    MemInv N (memSet c op.key op.content op.duration op.now) := by
  obtain ⟨hmax, h1, h2, h3, h4⟩ := hc
  by_cases hcap : c.maxItems ≤ c.currentItems
  · obtain ⟨hi, hcur, hm⟩ := memSet_at_capacity c op.key op.content op.duration op.now hcap
    have hne : c.items ≠ [] := by
      intro hnil
      have := h3 hnil
      omega
    obtain ⟨p, rest, hlist⟩ : ∃ p rest, c.items = p :: rest := by
      cases hl : c.items with
      | nil => exact absurd hl hne
      | cons p rest => exact ⟨p, rest, rfl⟩
    have hmem : ∃ q ∈ c.items, (evictScan c.items).1 = q.1 := by
      rw [hlist]
      exact evictScan_mem p rest (h4 p (by rw [hlist]; exact List.mem_cons_self p rest))
    obtain ⟨q, hq, hqk⟩ := hmem
    have hdel : (goMapDelete c.items (evictScan c.items).1).length < c.items.length :=
      goMapDelete_length_lt c.items (evictScan c.items).1 ⟨q, hq, hqk.symm⟩
    have hset := goMapSet_length (goMapDelete c.items (evictScan c.items).1) op.key
      ⟨op.content, memSetExpiration op.duration op.now⟩
    refine ⟨by rw [hm, hmax], ?_, by omega, ?_, ?_⟩
    · rw [hi, hcur]
      have : (goMapSet (goMapDelete c.items (evictScan c.items).1) op.key
          ⟨op.content, memSetExpiration op.duration op.now⟩).length ≤ c.items.length := by
        omega
      omega
    · intro hnil
      exact absurd hnil (by rw [hi]; exact goMapSet_ne_nil _ _ _)
    · rw [hi]
      exact goMapSet_unpinned _ _ _
        (goMapDelete_unpinned c.items (evictScan c.items).1 h4) hop
  · obtain ⟨hi, hcur, hm⟩ := memSet_below_capacity c op.key op.content op.duration op.now hcap
    have hset := goMapSet_length c.items op.key
      ⟨op.content, memSetExpiration op.duration op.now⟩
    rw [hmax] at hcap
    refine ⟨by rw [hm, hmax], ?_, by omega, ?_, ?_⟩
    · rw [hi, hcur]
      omega
    · intro hnil
      exact absurd hnil (by rw [hi]; exact goMapSet_ne_nil _ _ _)
    · rw [hi]
      exact goMapSet_unpinned _ _ _ h4 hop

/-- Folding any list of unpinned inserts preserves the invariant. -/
theorem foldl_memSet_inv (N : Int) (hN : 1 ≤ N) :
    ∀ (ops : List MemOp) (c : MemoryCache),
      (∀ op ∈ ops, isIndefinite op.expiration = false) → MemInv N c →
      MemInv N (ops.foldl (fun c op => memSet c op.key op.content op.duration op.now) c) := by
  intro ops
  induction ops with
  | nil => intro c _ hc; exact hc
  | cons op rest ih =>
    intro c hops hc
    rw [List.foldl_cons]
    exact ih _ (fun o ho => hops o (List.mem_cons_of_mem op ho))
      (memSet_preserves_inv N hN c op (hops op (List.mem_cons_self op rest)) hc)

/-- Claim C6 amended: for a memory cache of capacity at least 1 whose
resident keys are nonempty, an insert performed at capacity evicts an entry
of earliest expiration among the entries whose expiration is not the
never-expires sentinel; when every resident entry is pinned the insert takes
place by plain map assignment, evicting no pinned entry; and for capacity
N at least 1, after any sequence of inserts of unpinned keys from an empty
cache the number of unpinned items never exceeds N. -/
theorem memoryCache_eviction_and_capacity :
    (∀ (s : MemoryCache) (key content : String) (duration : Int) (now : GoTime),
        s.maxItems ≤ s.currentItems →
        (∀ p ∈ s.items, p.1 ≠ "") →
        (∃ p ∈ s.items, isIndefinite p.2.expiration = false) →
        ∃ q ∈ s.items, isIndefinite q.2.expiration = false
          ∧ (∀ r ∈ s.items, isIndefinite r.2.expiration = false →
              q.2.expiration ≤ r.2.expiration)
          ∧ (memSet s key content duration now).items
              = goMapSet (goMapDelete s.items q.1) key
                  ⟨content, memSetExpiration duration now⟩)
    ∧ (∀ (s : MemoryCache) (key content : String) (duration : Int) (now : GoTime),
        s.maxItems ≤ s.currentItems →
        (∀ p ∈ s.items, p.1 ≠ "") →
        (∀ p ∈ s.items, isIndefinite p.2.expiration = true) →
        (memSet s key content duration now).items
          = goMapSet s.items key ⟨content, memSetExpiration duration now⟩)
    ∧ (∀ (N : Int) (ops : List MemOp), 1 ≤ N →
        (∀ op ∈ ops, isIndefinite op.expiration = false) →
        (countUnpinned (runInserts N ops).items : Int) ≤ N) := by
  refine ⟨?_, ?_, ?_⟩
  · intro s key content duration now hcap hk hex
    rcases evictScan_spec s.items hk with ⟨hall, _⟩ | ⟨q, hq, hqe, hqind, hqmin⟩
    · obtain ⟨p, hp, hpind⟩ := hex
      rw [hall p hp] at hpind
      cases hpind
    · refine ⟨q, hq, hqind, hqmin, ?_⟩
      obtain ⟨hi, _, _⟩ := memSet_at_capacity s key content duration now hcap
      rw [hi, hqe]
  · intro s key content duration now hcap hk hall
    obtain ⟨hi, _, _⟩ := memSet_at_capacity s key content duration now hcap
    rw [hi]
    rcases evictScan_spec s.items hk with ⟨_, hsc⟩ | ⟨q, hq, _, hqind, _⟩
    · rw [hsc]
      rw [goMapDelete_of_not_mem s.items "" hk]
    · rw [hall q hq] at hqind
      cases hqind
  · intro N ops hN hops
    have hinv : MemInv N (runInserts N ops) := by
      apply foldl_memSet_inv N hN ops ⟨[], N, 0⟩ hops
      refine ⟨rfl, by simp, ?_, ?_, ?_⟩
      · show (0 : Int) ≤ N
        omega
      · intro _
        exact le_refl 0
      · intro p hp
        cases hp
    obtain ⟨_, h1, h2, _, _⟩ := hinv
    have hcount : countUnpinned (runInserts N ops).items ≤ (runInserts N ops).items.length := by
      unfold countUnpinned
      exact List.length_filter_le _ _
    have : (countUnpinned (runInserts N ops).items : Int)
        ≤ ((runInserts N ops).items.length : Int) := by exact_mod_cast hcount
    omega

/-- Witness for the amended C6 theorem: the all-pinned part applied at a
concrete one-entry cache at capacity, and the capacity part at a concrete
two-insert run. -/
theorem memoryCache_eviction_and_capacity_witness :
    ((1 : Int) ≤ 1
      ∧ (memSet ⟨[("p", ⟨"x", 0⟩)], 1, 1⟩ "k" "c" 5 10).items
          = goMapSet [("p", ⟨"x", 0⟩)] "k" ⟨"c", memSetExpiration 5 10⟩)
    ∧ (countUnpinned (runInserts 1 [⟨"a", "v", 10, 100⟩, ⟨"b", "w", 20, 200⟩]).items : Int)
        ≤ 1 :=
  ⟨⟨by decide,
    memoryCache_eviction_and_capacity.2.1 ⟨[("p", ⟨"x", 0⟩)], 1, 1⟩ "k" "c" 5 10
      (by decide) (by decide) (by decide)⟩,
   memoryCache_eviction_and_capacity.2.2 1 [⟨"a", "v", 10, 100⟩, ⟨"b", "w", 20, 200⟩]
      (by decide) (by decide)⟩

/-- Claim C8: UpdateNewest replaces the default-key slot exactly when the
passed item has nonempty content, a strictly later lastModified than the
stored default entry (the zero-value default standing in on a miss), and a
different hash; it is idempotent; and an input that is not strictly newer or
not different leaves the slot unchanged. -/
theorem UpdateNewest_iff_and_idempotent :
    (∀ (slot : Option CacheItem) (passedItem : CacheItem),
        UpdateNewest slot passedItem =
          if passedItem.content ≠ ""
              ∧ (slot.getD emptyFirstEntry).lastModified < passedItem.lastModified
              ∧ (slot.getD emptyFirstEntry).hash ≠ passedItem.hash
          then some passedItem else slot)
    ∧ (∀ (slot : Option CacheItem) (passedItem : CacheItem),
        UpdateNewest (UpdateNewest slot passedItem) passedItem
          = UpdateNewest slot passedItem)
    ∧ (∀ (slot : Option CacheItem) (passedItem : CacheItem),
        (¬ (slot.getD emptyFirstEntry).lastModified < passedItem.lastModified
          ∨ (slot.getD emptyFirstEntry).hash = passedItem.hash) →
        UpdateNewest slot passedItem = slot) := by
  have hchar : ∀ (slot : Option CacheItem) (passedItem : CacheItem),
      UpdateNewest slot passedItem =
        if passedItem.content ≠ ""
            ∧ (slot.getD emptyFirstEntry).lastModified < passedItem.lastModified
            ∧ (slot.getD emptyFirstEntry).hash ≠ passedItem.hash
        then some passedItem else slot := by
    intro slot passedItem
    unfold UpdateNewest
    by_cases hc : passedItem.content = ""
    · rw [if_pos hc]
      rw [if_neg]
      intro hEmpty
      exact hEmpty.1 hc
    · rw [if_neg hc]
      by_cases hcond : (slot.getD emptyFirstEntry).lastModified < passedItem.lastModified
          ∧ (slot.getD emptyFirstEntry).hash ≠ passedItem.hash
      · rw [if_pos hcond, if_pos ⟨hc, hcond.1, hcond.2⟩]
      · rw [if_neg hcond]
        rw [if_neg]
        intro hfull
        exact hcond ⟨hfull.2.1, hfull.2.2⟩
  refine ⟨hchar, ?_, ?_⟩
  · intro slot passedItem
    rw [hchar slot passedItem]
    by_cases hfull : passedItem.content ≠ ""
        ∧ (slot.getD emptyFirstEntry).lastModified < passedItem.lastModified
        ∧ (slot.getD emptyFirstEntry).hash ≠ passedItem.hash
    · rw [if_pos hfull]
      rw [hchar (some passedItem) passedItem]
      rw [if_neg]
      intro hagain
      exact absurd rfl hagain.2.2
    · rw [if_neg hfull]
      rw [hchar slot passedItem]
      rw [if_neg hfull]
  · intro slot passedItem hno
    rw [hchar slot passedItem]
    rw [if_neg]
    intro hfull
    rcases hno with hno | hno
    · exact hno hfull.2.1
    · exact hfull.2.2 hno

/-- Witness for the C8 theorem: the no-op part applied at a concrete slot
and item whose hashes coincide. -/
theorem UpdateNewest_iff_and_idempotent_witness :
    UpdateNewest (some ⟨"old", 50, "h1", 5, "i1"⟩) ⟨"new", 60, "h1", 9, "i2"⟩
      = some ⟨"old", 50, "h1", 5, "i1"⟩ :=
  UpdateNewest_iff_and_idempotent.2.2 (some ⟨"old", 50, "h1", 5, "i1"⟩)
    ⟨"new", 60, "h1", 9, "i2"⟩ (Or.inr rfl)

/-- When the sliced string is long enough, slicing succeeds and the sliced
value equals pfx exactly when pfx begins the string. -/
theorem goSliceTo_eq_iff (k pfx : String) (h : pfx.length ≤ k.length) :
    goSliceTo k pfx.length = .ok ⟨k.data.take pfx.length⟩
    ∧ ((⟨k.data.take pfx.length⟩ : String) = pfx ↔ pfx.data.isPrefixOf k.data = true) := by
  constructor
  · unfold goSliceTo
    rw [if_pos h]
  · rw [String.ext_iff]
    show k.data.take pfx.length = pfx.data ↔ _
    rw [List.isPrefixOf_iff_prefix, List.prefix_iff_eq_take]
    show _ ↔ pfx.data = k.data.take pfx.length
    constructor
    · intro h2
      exact h2.symm
    · intro h2
      exact h2.symm

/-- Claim C9: on both the memory layer and the filesystem layer,
DeleteWithPrefix removes exactly the entries (respectively the regular
files) whose name begins with the given pfx and returns nil, provided every
compared name is at least as long as pfx; and there are states with a
shorter name where the slice expression is out of range and the operation
does not complete normally. -/
theorem deleteWithPfx_exact_and_partial :
    (∀ (items : List (String × MemCacheItem)) (pfx : String),
        (∀ p ∈ items, pfx.length ≤ p.1.length) →
        memDeleteWithPfx items pfx
          = .ok (items.filter (fun p => !(pfx.data.isPrefixOf p.1.data))))
    ∧ (∀ (entries : List DirEntry) (pfx : String),
        (∀ e ∈ entries, e.dir = false → e.regular = true → pfx.length ≤ e.name.length) →
        fsDeleteWithPfx entries pfx
          = .ok (entries.filter
              (fun e => e.dir || !e.regular || !(pfx.data.isPrefixOf e.name.data))))
    ∧ memDeleteWithPfx [("a", ⟨"v", 5⟩)] "ab" = .error .sliceOutOfRange
    ∧ fsDeleteWithPfx [⟨"a", false, true⟩] "ab" = .error .sliceOutOfRange := by
  refine ⟨?_, ?_, rfl, rfl⟩
  · intro items pfx
    induction items with
    | nil => intro _; rfl
    | cons p rest ih =>
      intro h
      obtain ⟨k, v⟩ := p
      have hk : pfx.length ≤ k.length := h (k, v) (List.mem_cons_self _ _)
      have hrest := ih (fun q hq => h q (List.mem_cons_of_mem _ hq))
      obtain ⟨hs, hiff⟩ := goSliceTo_eq_iff k pfx hk
      show memDeleteWithPfx ((k, v) :: rest) pfx = _
      unfold memDeleteWithPfx
      simp only [hs, hrest, List.filter_cons]
      by_cases hp : pfx.data.isPrefixOf k.data = true
      · rw [if_pos (hiff.mpr hp)]
        simp [hp]
      · rw [if_neg (fun he => hp (hiff.mp he))]
        simp [hp]
  · intro entries pfx
    induction entries with
    | nil => intro _; rfl
    | cons e rest ih =>
      intro h
      have hrest := ih (fun q hq hd hr => h q (List.mem_cons_of_mem _ hq) hd hr)
      show fsDeleteWithPfx (e :: rest) pfx = _
      unfold fsDeleteWithPfx
      by_cases hd : e.dir = true
      · rw [if_pos hd, hrest, List.filter_cons]
        have : (e.dir || !e.regular || !(pfx.data.isPrefixOf e.name.data)) = true := by
          simp [hd]
        rw [this]
        rfl
      · have hd' : e.dir = false := by
          cases hdd : e.dir
          · rfl
          · exact absurd hdd hd
        rw [if_neg hd]
        by_cases hr : e.regular = true
        · have hnr : (!e.regular) = false := by simp [hr]
          rw [hnr, if_neg (by simp)]
          have hk : pfx.length ≤ e.name.length := h e (List.mem_cons_self _ _) hd' hr
          obtain ⟨hs, hiff⟩ := goSliceTo_eq_iff e.name pfx hk
          simp only [hs, hrest, List.filter_cons]
          by_cases hp : pfx.data.isPrefixOf e.name.data = true
          · rw [if_pos (hiff.mpr hp)]
            simp [hd', hr, hp]
          · rw [if_neg (fun he => hp (hiff.mp he))]
            simp [hd', hr, hp]
        · have hnr : (!e.regular) = true := by
            cases hrr : e.regular
            · rfl
            · exact absurd hrr hr
          rw [hnr, if_pos rfl, hrest, List.filter_cons]
          have : (e.dir || !e.regular || !(pfx.data.isPrefixOf e.name.data)) = true := by
            simp [hnr]
          rw [this]
          rfl

/-- Witness for the C9 theorem: the memory part applied at a concrete map
with keys long enough, deleting exactly the matching key. -/
theorem deleteWithPfx_exact_and_partial_witness :
    memDeleteWithPfx [("pq:1", ⟨"a", 5⟩), ("zz:2", ⟨"b", 6⟩)] "pq"
      = .ok [("zz:2", ⟨"b", 6⟩)] := by
  have := deleteWithPfx_exact_and_partial.1
    [("pq:1", ⟨"a", 5⟩), ("zz:2", ⟨"b", 6⟩)] "pq" (by decide)
  rw [this]
  rfl

/-- Claim C4 counterexample. The schema cache hit id uses Go time.Round,
which rounds to the nearest multiple of the duration, not down: at 70
seconds past a window boundary with a 100 second duration, the id is the
instant 100 seconds (rounded up), while truncation would give 0. -/
theorem schemaCacheHit_id_not_truncated :
    (schemaCacheHit "sdl" 70000000000 100).id = 100000000000
    ∧ goTimeTruncate 70000000000 (100 * 1000000000) = 0
    ∧ (100000000000 : Nat) ≠ 0 := by decide

/-- Go rounding equals the floor of (2t + d) / 2d scaled back by d: the
nearest multiple of d with halfway up. -/
theorem goTimeRound_eq_nearest (t d : Nat) (hd : 0 < d) :
    goTimeRound t d = ((2 * t + d) / (2 * d)) * d := by
  obtain ⟨q, r, hr, ht⟩ : ∃ q r, r < d ∧ t = d * q + r :=
    ⟨t / d, t % d, Nat.mod_lt t hd, (Nat.div_add_mod t d).symm⟩
  have hmod : t % d = r := by
    rw [ht, Nat.add_comm, Nat.mul_comm]
    rw [Nat.add_mul_mod_self_right]
    exact Nat.mod_eq_of_lt hr
  unfold goTimeRound
  rw [if_neg hd.ne', hmod]
  by_cases hhalf : 2 * r < d
  · rw [if_pos hhalf]
    have hq : (2 * t + d) / (2 * d) = q := by
      apply Nat.div_eq_of_lt_le
      · have hring : q * (2 * d) = 2 * (d * q) := by ring
        omega
      · have hring : (q + 1) * (2 * d) = 2 * (d * q) + 2 * d := by ring
        omega
    rw [hq]
    have hcomm : q * d = d * q := Nat.mul_comm q d
    omega
  · rw [if_neg hhalf]
    have hq : (2 * t + d) / (2 * d) = q + 1 := by
      apply Nat.div_eq_of_lt_le
      · have hring : (q + 1) * (2 * d) = 2 * (d * q) + 2 * d := by ring
        omega
      · have hring : (q + 1 + 1) * (2 * d) = 2 * (d * q) + 4 * d := by ring
        omega
    rw [hq]
    have hcomm : (q + 1) * d = d * q + d := by ring
    omega

/-- Claim C4 amended: the id of the schema cache hit reply equals the
current time rounded to the nearest multiple of the cache duration (Go
time.Round, halfway rounding up), so two hits within the same rounding
window produce the same id. -/
theorem schemaCacheHit_id_rounds_to_nearest :
    (∀ (content : String) (now d : Nat), 0 < d →
        (schemaCacheHit content now d).id
          = ((2 * now + d * 1000000000) / (2 * (d * 1000000000))) * (d * 1000000000))
    ∧ (∀ (c1 c2 : String) (t1 t2 d : Nat), 0 < d →
        (2 * t1 + d * 1000000000) / (2 * (d * 1000000000))
          = (2 * t2 + d * 1000000000) / (2 * (d * 1000000000)) →
        (schemaCacheHit c1 t1 d).id = (schemaCacheHit c2 t2 d).id) := by
  have hpos : ∀ d : Nat, 0 < d → 0 < d * 1000000000 := by
    intro d hd
    positivity
  have hid : ∀ (content : String) (now d : Nat), 0 < d →
      (schemaCacheHit content now d).id
        = ((2 * now + d * 1000000000) / (2 * (d * 1000000000))) * (d * 1000000000) := by
    intro content now d hd
    show goTimeRound now (d * 1000000000) = _
    exact goTimeRound_eq_nearest now (d * 1000000000) (hpos d hd)
  refine ⟨hid, ?_⟩
  intro c1 c2 t1 t2 d hd hw
  rw [hid c1 t1 d hd, hid c2 t2 d hd, hw]

/-- Witness for the amended C4 theorem: two hits 10 seconds apart inside the
same 100 second rounding window receive the same id. -/
theorem schemaCacheHit_id_rounds_to_nearest_witness :
    (0 < 100)
    ∧ (schemaCacheHit "a" 30000000000 100).id = (schemaCacheHit "b" 40000000000 100).id :=
  ⟨by decide,
   schemaCacheHit_id_rounds_to_nearest.2 "a" "b" 30000000000 40000000000 100
     (by decide) (by decide)⟩

/-- Claim C7 counterexample. A cached manifest whose id has no colon and a
request ifAfterId that also fails to decode both map to the failure sentinel
of DecodeID, so the equality check passes and the reply becomes Unchanged
with cleared chunks, although the claim promises the full cached result when
the ifAfterId does not decode to a matching pair. -/
theorem pqCacheHit_undecodable_gives_unchanged :
    pqCacheHit "x" (some ⟨"abc", "PersistedQueriesResult", 60, some [⟨"c1", ["u"]⟩]⟩) "xyz"
      = ⟨"abc", "Unchanged", 60, none⟩
    ∧ DecodeID "xyz" = ("", -1)
    ∧ DecodeID "abc" = ("", -1) := by decide

/-- Claim C7 amended: for a cached full manifest, the reply is the manifest
unchanged except that it becomes Unchanged with cleared chunks exactly when
DecodeID of the cached id and DecodeID of the ifAfterId agree on their base
and the after version is at least the cached version, where a failed decode
yields the sentinel pair ("", -1); in particular two undecodable ids compare
equal and give Unchanged. -/
theorem pqCacheHit_decode_condition :
    ∀ (itemId : String) (m : PQManifest) (ifAfterId : String),
      m.typename = "PersistedQueriesResult" →
      (((DecodeID m.id).1 = (DecodeID ifAfterId).1
          ∧ (DecodeID ifAfterId).2 ≥ (DecodeID m.id).2) →
        pqCacheHit itemId (some m) ifAfterId = { m with typename := "Unchanged", chunks := none })
      ∧ (¬ ((DecodeID m.id).1 = (DecodeID ifAfterId).1
          ∧ (DecodeID ifAfterId).2 ≥ (DecodeID m.id).2) →
        pqCacheHit itemId (some m) ifAfterId = m)
      ∧ ((pqCacheHit itemId (some m) ifAfterId).typename = "Unchanged" ↔
          (DecodeID m.id).1 = (DecodeID ifAfterId).1
            ∧ (DecodeID ifAfterId).2 ≥ (DecodeID m.id).2) := by
  intro itemId m ifAfterId htype
  refine ⟨?_, ?_, ?_⟩
  · intro hcond
    unfold pqCacheHit
    rw [if_pos hcond]
  · intro hcond
    unfold pqCacheHit
    rw [if_neg hcond]
  · constructor
    · intro hun
      by_contra hcond
      unfold pqCacheHit at hun
      rw [if_neg hcond] at hun
      rw [htype] at hun
      exact absurd hun (by decide)
    · intro hcond
      unfold pqCacheHit
      rw [if_pos hcond]

/-- Witness for the amended C7 theorem: an ifAfterId one version behind the
cached manifest receives the full manifest. -/
theorem pqCacheHit_decode_condition_witness :
    pqCacheHit "i" (some ⟨"abc:2", "PersistedQueriesResult", 60, some [⟨"c", ["u"]⟩]⟩) "abc:1"
      = ⟨"abc:2", "PersistedQueriesResult", 60, some [⟨"c", ["u"]⟩]⟩ :=
  (pqCacheHit_decode_condition "i"
    ⟨"abc:2", "PersistedQueriesResult", 60, some [⟨"c", ["u"]⟩]⟩ "abc:1" rfl).2.1 (by decide)

/-- Claim C3 counterexample. The pinned persisted-query entry has
lastModified 100, the request ifAfterId parses to the instant 50, and now is
200. The entry is newer than the ifAfterId time (50 is less than 100), so
the claim requires the full pinned entry to be served and Unchanged exactly
otherwise. The code never consults the ifAfterId time for persisted queries
(the source comments that it is skipping this, the ID format being
different): it compares lastModified against time.Now(), obtains 100 not
after 200, returns no entry, and the relay branch dereferences the nil entry
in handleCacheHit, so neither the entry nor an Unchanged reply is produced. -/
theorem pinnedPQ_counterexample :
    pinnedPQFallback (fun s => if s = "1970-01-01T00:00:50+0000" then some 50 else none)
        200 [("g:v:PersistedQueriesPinned", ⟨"manifest", 0, "h", 100, "b:1"⟩)]
        "g" "v" "1970-01-01T00:00:50+0000"
        (fun _ => ⟨"b:1", "PersistedQueriesResult", 60, none⟩)
      = .error .nilPointerDereference
    ∧ HandlePinnedEntry (fun s => if s = "1970-01-01T00:00:50+0000" then some 50 else none)
        200 [("g:v:PersistedQueriesPinned", ⟨"manifest", 0, "h", 100, "b:1"⟩)]
        "g" "v" PersistedQueriesQuery "1970-01-01T00:00:50+0000"
      = none
    ∧ (50 : GoTime) < 100 := ⟨rfl, rfl, by decide⟩

/-- Claim C3 amended: for a relay request with no cache hit whose graph pins
persisted queries and whose ifAfterId is nonempty, the pinned fallback
ignores the ifAfterId time entirely: HandlePinnedEntry returns the pinned
entry exactly when its lastModified lies in the future of time.Now(), and
otherwise returns no entry, upon which the relay branch dereferences nil
instead of producing an Unchanged reply. -/
theorem pinnedPQ_compares_to_now :
    ∀ (parseTime : String → Option GoTime) (now : GoTime)
      (store : List (String × CacheItem)) (graphID variantID ifAfterId : String)
      (decodeManifest : String → PQManifest) (entry : CacheItem),
      ifAfterId ≠ "" →
      goMapGet store (MakeCacheKey (graphID ++ "@" ++ variantID)
          (OperationMapping PersistedQueriesQuery) []) = some entry →
      (HandlePinnedEntry parseTime now store graphID variantID
          PersistedQueriesQuery ifAfterId
        = if now < entry.lastModified then some entry else none)
      ∧ (¬ now < entry.lastModified →
          pinnedPQFallback parseTime now store graphID variantID ifAfterId decodeManifest
            = .error .nilPointerDereference) := by
  intro parseTime now store graphID variantID ifAfterId decodeManifest entry hne hget
  have hmain : HandlePinnedEntry parseTime now store graphID variantID
      PersistedQueriesQuery ifAfterId
      = if now < entry.lastModified then some entry else none := by
    unfold HandlePinnedEntry
    simp only [hget]
    rw [if_neg hne]
    simp
  refine ⟨hmain, ?_⟩
  intro hnot
  unfold pinnedPQFallback
  rw [hmain, if_neg hnot]

/-- Witness for the amended C3 theorem: a concrete pinned entry with
lastModified in the past yields none and the nil-dereference outcome. -/
theorem pinnedPQ_compares_to_now_witness :
    (HandlePinnedEntry (fun _ => some 50) 200
        [("g:v:PersistedQueriesPinned", ⟨"m", 0, "h", 100, "b:1"⟩)]
        "g" "v" PersistedQueriesQuery "x"
      = if (200 : GoTime) < (100 : GoTime)
        then some (⟨"m", 0, "h", 100, "b:1"⟩ : CacheItem) else none)
    ∧ pinnedPQFallback (fun _ => some 50) 200
        [("g:v:PersistedQueriesPinned", ⟨"m", 0, "h", 100, "b:1"⟩)]
        "g" "v" "x" (fun _ => ⟨"b:1", "PersistedQueriesResult", 60, none⟩)
      = .error .nilPointerDereference := by
  have h := pinnedPQ_compares_to_now (fun _ => some 50) 200
    [("g:v:PersistedQueriesPinned", ⟨"m", 0, "h", 100, "b:1"⟩)]
    "g" "v" "x" (fun _ => ⟨"b:1", "PersistedQueriesResult", 60, none⟩)
    ⟨"m", 0, "h", 100, "b:1"⟩ (by decide) (by decide)
  exact ⟨h.1, h.2 (by decide)⟩

/-- Looking up the key of a one-entry map finds its value. -/
theorem goMapGet_singleton_self {α : Type} (k : String) (v : α) :
    goMapGet [(k, v)] k = some v := by
  simp [goMapGet]

/-- Deleting one key does not change lookups of a different key. -/
theorem goMapGet_delete_ne {α : Type} (m : List (String × α)) (k kdel : String)
    (h : k ≠ kdel) : goMapGet (goMapDelete m kdel) k = goMapGet m k := by
  unfold goMapGet goMapDelete
  induction m with
  | nil => rfl
  | cons p rest ih =>
    rw [List.filter_cons]
    by_cases hpd : (!(p.1 == kdel)) = true
    · rw [if_pos hpd]
      by_cases hk : (p.1 == k) = true
      · simp only [List.find?, hk]
      · have hkf : (p.1 == k) = false := by
          cases hb : (p.1 == k)
          · rfl
          · exact absurd hb hk
        simp only [List.find?, hkf]
        exact ih
    · rw [if_neg hpd]
      have hpk : (p.1 == kdel) = true := by
        cases hb : (p.1 == kdel)
        · rw [hb] at hpd
          simp at hpd
        · rfl
      have hknot : (p.1 == k) = false := by
        rw [beq_eq_false_iff_ne]
        intro hc
        rw [hc] at hpk
        exact h (beq_iff_eq.mp hpk)
      simp only [List.find?, hknot]
      exact ih

/-- Claim C10: the relay handler returns a response only when graph_ref,
when present, is a JSON string and ifAfterId is absent, null, or a string.
First part: a present non-string graph_ref reaches the unchecked .(string)
assertion and panics in every configuration and cache state. Second part: a
well-typed graph_ref with a present non-string ifAfterId panics in some
state, namely under any cache-enabled configuration whose cache holds the
request key, where the cache-hit call asserts ifAfterId as a string. -/
theorem relayHandler_unchecked_assertions :
    (∀ (cfg : RelayConfig) (store : List (String × CacheItem)) (req : RelayRequest),
        (goMapGet req.vars "graph_ref").getD .vnull ≠ .vnull →
        (∀ s, (goMapGet req.vars "graph_ref").getD .vnull ≠ .vstr s) →
        RelayHandler cfg store req = .error .interfaceConversion)
    ∧ (∀ (req : RelayRequest) (graphRef : String),
        (goMapGet req.vars "graph_ref").getD .vnull = .vstr graphRef →
        (ParseGraphRef graphRef).isSome →
        (goMapGet req.vars "ifAfterId").getD .vnull ≠ .vnull →
        (∀ s, (goMapGet req.vars "ifAfterId").getD .vnull ≠ .vstr s) →
        ∃ (cfg : RelayConfig) (store : List (String × CacheItem)),
          RelayHandler cfg store req = .error .interfaceConversion) := by
  constructor
  · intro cfg store req hnn hns
    cases hval : (goMapGet req.vars "graph_ref").getD GoVal.vnull with
    | vnull => exact absurd hval hnn
    | vstr s => exact absurd hval (hns s)
    | vnum n =>
      simp only [RelayHandler, hval]
      rw [if_neg (by simp)]
      rfl
    | vbool b =>
      simp only [RelayHandler, hval]
      rw [if_neg (by simp)]
      rfl
  · intro req graphRef hg hparse hnn hns
    obtain ⟨gv, hgv⟩ := Option.isSome_iff_exists.mp hparse
    have hdel : (goMapGet (goMapDelete req.vars "apiKey") "ifAfterId").getD GoVal.vnull
        = (goMapGet req.vars "ifAfterId").getD GoVal.vnull := by
      rw [goMapGet_delete_ne req.vars "ifAfterId" "apiKey" (by decide)]
    refine ⟨⟨true, 0, []⟩,
      [(MakeCacheKey graphRef req.operationName (goMapDelete req.vars "apiKey"),
        ⟨"", 0, "", 0, ""⟩)], ?_⟩
    cases hia : (goMapGet req.vars "ifAfterId").getD GoVal.vnull with
    | vnull => exact absurd hia hnn
    | vstr s => exact absurd hia (hns s)
    | vnum n =>
      have hdel2 : (goMapGet (goMapDelete req.vars "apiKey") "ifAfterId").getD GoVal.vnull
          = GoVal.vnum n := by rw [hdel, hia]
      simp [RelayHandler, hg, hgv, hdel2, assertString, goMapGet_singleton_self]
    | vbool b =>
      have hdel2 : (goMapGet (goMapDelete req.vars "apiKey") "ifAfterId").getD GoVal.vnull
          = GoVal.vbool b := by rw [hdel, hia]
      simp [RelayHandler, hg, hgv, hdel2, assertString, goMapGet_singleton_self]

/-- Witness for the C10 theorem: a concrete body carrying a numeric
ifAfterId next to a valid graph_ref has a configuration and cache state in
which the handler panics instead of answering. -/
theorem relayHandler_unchecked_assertions_witness :
    ∃ (cfg : RelayConfig) (store : List (String × CacheItem)),
      RelayHandler cfg store
        ⟨"q", [("graph_ref", .vstr "g@v"), ("ifAfterId", .vnum 5)], "SupergraphSdlQuery"⟩
        = .error .interfaceConversion :=
  relayHandler_unchecked_assertions.2
    ⟨"q", [("graph_ref", .vstr "g@v"), ("ifAfterId", .vnum 5)], "SupergraphSdlQuery"⟩
    "g@v" rfl (by decide) (by decide)
    (by intro s; show GoVal.vnum 5 ≠ GoVal.vstr s; exact fun h => GoVal.noConfusion h)

/-- Claim C2. The claim states the rewritten URL form holds for every chunk
and index, including later loop iterations. In the source the loop reassigns
parsedUrl to parsedUrl.JoinPath of the route on every iteration, so the
second and later URLs accumulate a repeated persisted-queries path segment:
with public URL http://example.com and one chunk with two source URLs, the
first rewritten URL has the claimed form and the second does not (and the
chunk handler, which splits the request path on the route, would answer 400
for it). The repo test exercising a path-carrying public URL only covers a
single URL per call, where the claimed form does hold. -/
theorem chunkRewrite_doubles_route_segment :
    CachePersistedQueryChunkData true "http://example.com" "" "" [⟨"123", ["u1", "u2"]⟩]
      = .ok [⟨"123", ["http://example.com/persisted-queries/123?i=0",
                      "http://example.com/persisted-queries/persisted-queries/123?i=1"]⟩]
    ∧ ("http://example.com/persisted-queries/persisted-queries/123?i=1" : String)
      ≠ "http://example.com" ++ "/persisted-queries/" ++ "123" ++ "?i=" ++ "1" :=
  ⟨rfl, by decide⟩

end UplinkRelay
